import Mathlib

/-!
# Verification of the bOt ingestion/retrieval core

Shallow embedding of the chunking, indexing, retrieval, and enrichment
logic of `app/rag.py` and `app/scraper.py`, together with proofs of the
specified properties.

Text is modelled as `List Char` in the chunker development (Python `str`
slicing maps to `take`/`drop`) and as `String` in the service-level
development.  Python whitespace (`\s` in the regular expressions actually
used by the code, and bare `.strip()`) is modelled by the ASCII whitespace
class, which is exact for every input considered here.
-/

namespace Bot

/-- ASCII whitespace class modelling Python's regex class for whitespace
and bare `str.strip()` on ASCII inputs. -/
def isSpace (c : Char) : Bool :=
  c = ' ' ∨ c = '\t' ∨ c = '\n' ∨ c = '\r' ∨ c = '\x0b' ∨ c = '\x0c'

/-- Python `str.strip()`: drop whitespace from both ends. -/
def pyStrip (l : List Char) : List Char :=
  ((l.dropWhile isSpace).reverse.dropWhile isSpace).reverse

/-- Worker for whitespace-run collapsing: `prevSpace` records whether the
previously emitted character came from a whitespace run. -/
def collapseWs : Bool → List Char → List Char
  | _, [] => []
  | prevSpace, c :: rest =>
    if isSpace c then
      if prevSpace then collapseWs true rest
      else ' ' :: collapseWs true rest
    else c :: collapseWs false rest

/-- Normalization `re.sub(whitespace-run, single-space, text).strip()` — the
normalization both chunkers perform first. -/
def normalizeWs (t : List Char) : List Char :=
  pyStrip (collapseWs false t)

/-- Python `window.rfind(two-character pattern c ++ space)` as used by both
chunkers: the greatest index at which `c` is immediately followed by a
space, or `-1` when there is none. -/
def rfindPat (w : List Char) (c : Char) : Int :=
  ((List.range w.length).filter
    (fun i => w.get? i = some c ∧ w.get? (i + 1) = some ' ')).foldr
    (fun i acc => max (Int.ofNat i) acc) (-1)

/-- Python `max(window.rfind(". "), window.rfind("? "), window.rfind("! "))`. -/
def sentenceCut (w : List Char) : Int :=
  max (max (rfindPat w '.') (rfindPat w '?')) (rfindPat w '!')

/-- Python slice `text[start:end]`. -/
def pySlice (t : List Char) (start stop : Nat) : List Char :=
  (t.take stop).drop start

/-- The dedupe / clean pass shared by both chunkers:
`out = []; last = ""; for c in chunks: if c and c != last: out.append(c); last = c`. -/
def dedupeGo : List (List Char) → List Char → List (List Char)
  | [], _ => []
  | c :: rest, last =>
    if c ≠ [] ∧ c ≠ last then c :: dedupeGo rest c else dedupeGo rest last

def dedupe (chunks : List (List Char)) : List (List Char) :=
  dedupeGo chunks []

/-!
## The document-pipeline chunker (`app/rag.py`, `_chunk_text`)

The `while` loop of `rag._chunk_text` carries `(start, chunks)`.  Its
advance is `start = max(0, start + cut - overlap)`, with no strict
forward-progress clamp, so the loop need not terminate; it is embedded
with explicit fuel, `none` meaning fuel exhaustion.
-/

/-- One-loop-at-a-time embedding of the `while start < len(text)` loop of
`rag._chunk_text`.  `none` = the given fuel did not suffice. -/
def ragLoop (t : List Char) (maxChars overlap : Nat) :
    Nat → Nat → List (List Char) → Option (List (List Char))
  | 0, _, _ => none
  | fuel + 1, start, chunks =>
    if start < t.length then
      let stop := min (start + maxChars) t.length
      let window := pySlice t start stop
      let r := sentenceCut window
      let cut : Nat := if r = -1 ∨ stop = t.length then window.length else r.toNat
      let chunk := pyStrip (window.take cut)
      let chunks' := if chunk ≠ [] then chunks ++ [chunk] else chunks
      -- start = start + cut; start = max(0, start - overlap)
      let start' : Nat := start + cut - overlap
      if stop = t.length then some chunks'
      else ragLoop t maxChars overlap fuel start' chunks'
    else some chunks

/-- Function `rag._chunk_text(text, max_chars, overlap)`, with fuel
`len(text) + 1`; `none` = the Python loop runs longer than that (for a
terminating run each iteration advances `start`, so this fuel suffices). -/
def ragChunkText (t : List Char) (maxChars overlap : Nat) :
    Option (List (List Char)) :=
  let text := normalizeWs t
  if text.length ≤ maxChars then some (if text ≠ [] then [text] else [])
  else (ragLoop text maxChars overlap (text.length + 1) 0 []).map dedupe

/-!
## The website-pipeline chunker (`app/scraper.py`, `_chunk_text`)

This variant includes the sentence terminator in the chunk (`cut += 1`)
and clamps the advance (`if next_start <= start: next_start = start +
max(1, cut // 2)`), which makes the loop terminate unconditionally.
-/

/-- Advance `next_start = start + cut - overlap; if next_start <= start:
next_start = start + max(1, cut // 2)` — the clamped advance of
`scraper._chunk_text`. -/
def scraperNextStart (start cut overlap : Nat) : Nat :=
  let ns : Int := (start : Int) + cut - overlap
  if ns ≤ (start : Int) then start + max 1 (cut / 2) else ns.toNat

/-- The `while start < len(text)` loop of `scraper._chunk_text`, embedded
with explicit fuel like `ragLoop` so that it is executable by the kernel;
`scraperLoop_some` below proves that `t.length + 1` fuel always
suffices, which is the termination theorem for the source loop. -/
def scraperLoop (t : List Char) (maxChars overlap : Nat) :
    Nat → Nat → List (List Char) → Option (List (List Char))
  | 0, _, _ => none
  | fuel + 1, start, chunks =>
    if start < t.length then
      let stop := min (start + maxChars) t.length
      let window := pySlice t start stop
      let r := sentenceCut window
      let cut : Nat := if r = -1 ∨ stop = t.length then window.length else r.toNat + 1
      let chunk := pyStrip (window.take cut)
      let chunks' := if chunk ≠ [] then chunks ++ [chunk] else chunks
      if stop ≥ t.length then some chunks'
      else scraperLoop t maxChars overlap fuel
        (scraperNextStart start cut overlap) chunks'
    else some chunks

/-- Function `scraper._chunk_text(text, max_chars, overlap)`; `none` would mean
the loop runs more than `len(text) + 1` iterations, which
`scraper_chunk_terminates` below refutes. -/
def scraperChunkText (t : List Char) (maxChars overlap : Nat) :
    Option (List (List Char)) :=
  let text := normalizeWs t
  if text.length ≤ maxChars then some (if text ≠ [] then [text] else [])
  else (scraperLoop text maxChars overlap (text.length + 1) 0 []).map dedupe

/-- Characters of a string literal. -/
def chars (s : String) : List Char := s.data

/-!
## Vector index model (`app/rag.py` / `app/scraper.py` service layer)

Embedding vectors and hash digests are opaque to every property proved
here, so the development is parametric: `V` is the vector type, an
`emb : String → V` parameter stands for the embedding service
(`embed_chunks`, order-preserving and one vector per text per spec §6),
and `h : String → String` stands for `hashlib.sha256(...).hexdigest()`
(`hmd5 : String → String` for the truncated md5 of `upsert_website_chunks`).
-/

/-- Metadata attached to every upserted vector, as built in
`rag.upsert_chunks` and `scraper.upsert_website_chunks` (`source` is the
`doc` field for documents and the `url` field for websites). -/
structure EntryMeta where
  tenant_code : String
  user_code : String
  source_type : String
  source : String
  chunk_index : Nat
  text : String
  deriving DecidableEq, Repr

/-- One vector record passed to `index.upsert`:  `{id, values, metadata}`. -/
structure IndexEntry (V : Type) where
  id : String
  values : V
  meta : EntryMeta
  deriving DecidableEq, Repr

/-- The vector store: a list of (namespace, entry) records.
Modelled from the spec (§6): the vector index service is an opaque
external store partitioned by namespace, with overwrite-by-id upsert and
filtered query semantics. -/
abbrev Store (V : Type) : Type := List (String × IndexEntry V)

/-- Index `upsert` overwrite-by-id semantics of the index service (spec §4.4 /
§6): each written entry replaces any existing entry of the same id in the
same namespace. -/
def storeUpsert {V : Type} (ns : String) (entries : List (IndexEntry V))
    (store : Store V) : Store V :=
  entries.foldl
    (fun st e =>
      st.filter (fun p => ¬(p.1 = ns ∧ p.2.id = e.id)) ++ [(ns, e)]) store

/-- The identifying keys of a store: (namespace, id) pairs — what
"overwrites rather than duplicates" is about. -/
def storeKeys {V : Type} (store : Store V) : List (String × String) :=
  store.map (fun p => (p.1, p.2.id))

/-- The metadata filters `rag.search` builds: `$eq` predicates joined by
`$and`. -/
inductive MetaFilter where
  | eqTenant (t : String)
  | eqSourceType (s : String)
  | eqUser (u : String)
  | conj (a b : MetaFilter)
  deriving DecidableEq, Repr

def MetaFilter.eval : MetaFilter → EntryMeta → Bool
  | .eqTenant t, m => m.tenant_code = t
  | .eqSourceType s, m => m.source_type = s
  | .eqUser u, m => m.user_code = u
  | .conj a b, m => a.eval m && b.eval m

/-- A query result: score plus the stored entry (Pinecone returns
`{score, metadata}`; the entry carries the metadata). -/
structure SearchMatch (V : Type) where
  score : ℚ
  entry : IndexEntry V
  deriving DecidableEq, Repr

/-- Query `index.query(namespace=ns, filter=flt, top_k, include_metadata=True)`.
Modelled from the spec (§6): the service returns up to `topK` matches
drawn from the queried namespace that satisfy the metadata filter; the
similarity scoring is opaque and supplied as the parameter `sc`. -/
def indexQuery {V : Type} (store : Store V) (ns : String)
    (flt : MetaFilter) (topK : Nat) (sc : IndexEntry V → ℚ) :
    List (SearchMatch V) :=
  ((store.filter (fun p => p.1 = ns && flt.eval p.2.meta)).map
    (fun p => ⟨sc p.2, p.2⟩)).take topK

/-- The vector records built by `rag.upsert_chunks`: id =
`sha256(f"{tenant_code}:{doc_filename}:{i}")`, metadata as in the source,
one record per (chunk, embedding) pair. -/
def upsertChunksVectors {V : Type} (h : String → String) (emb : String → V)
    (tenant_code user_code doc_filename : String) (chunks : List String) :
    List (IndexEntry V) :=
  chunks.enum.map (fun p =>
    { id := h (tenant_code ++ ":" ++ doc_filename ++ ":" ++ toString p.1)
      values := emb p.2
      meta :=
        { tenant_code := tenant_code
          user_code := user_code
          source_type := "document"
          source := doc_filename
          chunk_index := p.1
          text := p.2 } })

/-- Function `rag.upsert_chunks`: embed, build vectors, upsert into the tenant's
namespace, return the number written. -/
def upsert_chunks {V : Type} (h : String → String) (emb : String → V)
    (tenant_code user_code doc_filename : String) (chunks : List String)
    (store : Store V) : Nat × Store V :=
  let vectors := upsertChunksVectors h emb tenant_code user_code doc_filename chunks
  (vectors.length, storeUpsert tenant_code vectors store)

/-- The vector records built by `scraper.upsert_website_chunks`: id =
`sha256(f"{tenant_code}:website:{url_hash}:{i}")` with `url_hash` the
truncated md5 of the url (opaque parameter `hmd5`). -/
def upsertWebsiteVectors {V : Type} (h hmd5 : String → String)
    (emb : String → V) (tenant_code user_code url : String)
    (chunks : List String) : List (IndexEntry V) :=
  chunks.enum.map (fun p =>
    { id := h (tenant_code ++ ":website:" ++ hmd5 url ++ ":" ++ toString p.1)
      values := emb p.2
      meta :=
        { tenant_code := tenant_code
          user_code := user_code
          source_type := "website"
          source := url
          chunk_index := p.1
          text := p.2 } })

/-- Filter construction of `rag.search`: tenant equality always present,
then optional source-type and user-code conjuncts. -/
def buildSearchFilter (tenant_code : String)
    (filter_user_code : Option String) (source_type : String) : MetaFilter :=
  let flt := MetaFilter.eqTenant tenant_code
  let flt :=
    if source_type = "documents" then .conj flt (.eqSourceType "document")
    else if source_type = "websites" then .conj flt (.eqSourceType "website")
    else flt
  match filter_user_code with
  | some u => .conj flt (.eqUser u)
  | none => flt

/-- Function `rag.search(tenant_code, query, top_k, filter_user_code, source_type)`:
embed the query, build the filter, query the index in the tenant's
namespace.  The source function has no score-threshold parameter and
performs no score-based filtering. -/
def search {V : Type} (qemb : String → V) (sc : IndexEntry V → ℚ)
    (tenant_code query : String) (top_k : Nat)
    (filter_user_code : Option String) (source_type : String)
    (store : Store V) : List (SearchMatch V) :=
  let _q_emb := qemb query
  let flt := buildSearchFilter tenant_code filter_user_code source_type
  indexQuery store tenant_code flt top_k sc

/-!
## Ingestion pipeline (`rag.document_to_pinecone`)

Modelled at the extracted-content boundary, with an explicit log of the
external service calls it makes; `none` stands for a run whose chunking
loop does not terminate.
-/

/-- One outbound service call of the ingestion pipeline. -/
inductive SvcCall (V : Type) where
  | embedCall (texts : List String)
  | upsertCall (ns : String) (ids : List String)
  deriving DecidableEq, Repr

/-- Function `rag.document_to_pinecone` after extraction: the empty-content
short-circuit (`if not content.strip(): return 0`), then chunking with
the source defaults `max_chars=3000, overlap=400`, then
`upsert_chunks`.  Returns the chunk count and the list of service calls
made. -/
def document_to_pinecone {V : Type} (h : String → String)
    (emb : String → V) (tenant_code user_code stored_filename : String)
    (content : List Char) : Option (Nat × List (SvcCall V)) :=
  if pyStrip content = [] then some (0, [])
  else
    match ragChunkText content 3000 400 with
    | none => none
    | some chunkLists =>
      let chunks := chunkLists.map (fun l => String.mk l)
      let vectors := upsertChunksVectors h emb tenant_code user_code
        stored_filename chunks
      some (vectors.length,
        [SvcCall.embedCall chunks,
         SvcCall.upsertCall tenant_code (vectors.map (fun v => v.id))])

/-!
## Image enrichment (`scraper._download_and_analyze_image` and the
aggregation loop of `scraper.scrape_and_index_website`)

The outcome of one image task's environment interactions (download,
decode, size checks, vision call) is reified as `ImgOutcome`; each
constructor corresponds to one exit path of
`_download_and_analyze_image`. -/

inductive ImgOutcome where
  /-- url ends in `.svg` — skipped before download. -/
  | svgUrl
  /-- Exception `httpx.TimeoutException` during download — caught, returns `""`. -/
  | httpTimeout
  /-- HTTP `raise_for_status` failure or any other exception — caught, returns `""`. -/
  | httpError
  /-- body larger than 5 MB — skipped. -/
  | tooLarge
  /-- PIL cannot decode the bytes — caught, returns `""`. -/
  | decodeError
  /-- width or height below 50 px — skipped. -/
  | tooSmall
  /-- the vision call raised — caught inside `_describe_image`, returns `""`. -/
  | visionError
  /-- successful run; `desc` is the description the vision model returned. -/
  | ok (desc : String)
  deriving DecidableEq, Repr

/-- Function `_download_and_analyze_image`, as a function of its environment
outcome: every non-success path returns the empty string, no path
raises. -/
def downloadAndAnalyzeImage : ImgOutcome → String
  | .svgUrl => ""
  | .httpTimeout => ""
  | .httpError => ""
  | .tooLarge => ""
  | .decodeError => ""
  | .tooSmall => ""
  | .visionError => ""
  | .ok desc => desc

/-- An outcome on which the image task failed (every constructor except
success). -/
def ImgOutcome.isFailure : ImgOutcome → Prop
  | .ok _ => False
  | _ => True

instance : DecidablePred ImgOutcome.isFailure := fun o => by
  cases o <;> simp [ImgOutcome.isFailure] <;> infer_instance

/-- The aggregation loop of `scrape_and_index_website`:
`for i, desc in enumerate(descriptions): if isinstance(desc, str) and
desc: image_descriptions.append(f"[IMAGE i+1]: desc")`, with `i` the
running index. -/
def collectDescriptions : Nat → List ImgOutcome → List String
  | _, [] => []
  | i, o :: rest =>
    let desc := downloadAndAnalyzeImage o
    if desc ≠ "" then
      ("\n[IMAGE " ++ toString (i + 1) ++ "]: " ++ desc ++ "\n")
        :: collectDescriptions (i + 1) rest
    else collectDescriptions (i + 1) rest

/-- Enrichment output of one scrape: the non-empty descriptions of the
first `max_images` images, tagged with their position. -/
def enrichDescriptions (maxImages : Nat) (outcomes : List ImgOutcome) :
    List String :=
  collectDescriptions 0 (outcomes.take maxImages)

/-!
## Semaphore-bounded concurrency (`scrape_and_index_website`)

`asyncio.Semaphore(max_concurrent_images)` guards the whole body of each
image task (`async with semaphore:`).  The coordinator's execution is
modelled as a transition system: a task moves from pending to running by
acquiring the semaphore (only possible when a permit is available) and
from running to done by releasing it.  Any interleaving the asyncio
scheduler can produce is a path of this system.
-/

structure EnrichState where
  avail : Nat
  pending : List Nat
  running : List Nat
  done : List Nat
  deriving DecidableEq, Repr

/-- Initial state: all permits free, one pending task per image kept by
`image_urls[:max_images]`, nothing running. -/
def enrichInit (maxConcurrency : Nat) (imageCount maxImages : Nat) :
    EnrichState :=
  ⟨maxConcurrency, List.range (min imageCount maxImages), [], []⟩

inductive EnrichStep : EnrichState → EnrichState → Prop where
  /-- Python `await semaphore.acquire()`: needs a free permit. -/
  | acquire (i : Nat) (s : EnrichState) :
      0 < s.avail → i ∈ s.pending →
      EnrichStep s ⟨s.avail - 1, s.pending.erase i, i :: s.running, s.done⟩
  /-- leaving the `async with` block releases the permit (also on
  exception paths). -/
  | release (i : Nat) (s : EnrichState) :
      i ∈ s.running →
      EnrichStep s ⟨s.avail + 1, s.pending, s.running.erase i, i :: s.done⟩

/-- Reachability from a given state under coordinator steps. -/
inductive EnrichReach (init : EnrichState) : EnrichState → Prop where
  | refl : EnrichReach init init
  | step {s s' : EnrichState} :
      EnrichReach init s → EnrichStep s s' → EnrichReach init s'

/-!
## Helper lemmas
-/

theorem scraperNextStart_gt (start cut overlap : Nat) :
    start < scraperNextStart start cut overlap := by
  unfold scraperNextStart
  simp only []
  split
  · have h1 : 1 ≤ max 1 (cut / 2) := le_max_left _ _
    omega
  · rename_i h
    push_neg at h
    omega

theorem collapseWs_length_le (l : List Char) :
    ∀ b, (collapseWs b l).length ≤ l.length := by
  induction l with
  | nil => intro b; simp [collapseWs]
  | cons c rest ih =>
    intro b
    by_cases hc : isSpace c = true
    · cases b <;> simp [collapseWs, hc] <;>
        exact Nat.le_trans (ih true) (by omega)
    · simp [collapseWs, hc]
      exact ih false

theorem dropWhile_len_le (p : Char → Bool) (l : List Char) :
    (l.dropWhile p).length ≤ l.length :=
  (List.dropWhile_suffix p).sublist.length_le

theorem pyStrip_length_le (l : List Char) : (pyStrip l).length ≤ l.length := by
  unfold pyStrip
  simp only [List.length_reverse]
  calc ((l.dropWhile isSpace).reverse.dropWhile isSpace).length
      ≤ (l.dropWhile isSpace).reverse.length := dropWhile_len_le _ _
    _ = (l.dropWhile isSpace).length := List.length_reverse _
    _ ≤ l.length := dropWhile_len_le _ _

theorem normalizeWs_length_le (t : List Char) :
    (normalizeWs t).length ≤ t.length :=
  le_trans (pyStrip_length_le _) (collapseWs_length_le t false)

theorem dedupeGo_subset (l : List (List Char)) :
    ∀ last c, c ∈ dedupeGo l last → c ∈ l := by
  induction l with
  | nil => intro last c h; simp [dedupeGo] at h
  | cons x rest ih =>
    intro last c h
    unfold dedupeGo at h
    by_cases hx : x ≠ [] ∧ x ≠ last
    · rw [if_pos hx] at h
      rcases List.mem_cons.mp h with h1 | h1
      · simp [h1]
      · exact List.mem_cons_of_mem _ (ih x c h1)
    · rw [if_neg hx] at h
      exact List.mem_cons_of_mem _ (ih last c h)

theorem dedupe_subset (l : List (List Char)) (c : List Char)
    (h : c ∈ dedupe l) : c ∈ l :=
  dedupeGo_subset l [] c h

/-- A stripped prefix of any window of width `maxChars` is at most
`maxChars` long — the reason every emitted chunk is bounded. -/
theorem window_piece_le (t : List Char) (start maxChars cut : Nat) :
    (pyStrip ((pySlice t start (min (start + maxChars) t.length)).take cut)).length
      ≤ maxChars := by
  refine le_trans (pyStrip_length_le _) ?_
  simp only [List.length_take, pySlice, List.length_drop]
  omega

/-- Appending one bounded chunk (or not) preserves the chunk-length
bound on the accumulator. -/
theorem chunks_snoc_bound {maxChars : Nat} {acc : List (List Char)}
    (hacc : ∀ c ∈ acc, c.length ≤ maxChars) {chunk : List Char}
    (hchunk : chunk.length ≤ maxChars) (b : Prop) [Decidable b] :
    ∀ c ∈ (if b then acc ++ [chunk] else acc), c.length ≤ maxChars := by
  intro c hc
  split at hc
  · rcases List.mem_append.mp hc with h1 | h1
    · exact hacc c h1
    · simp only [List.mem_singleton] at h1
      subst h1
      exact hchunk
  · exact hacc c hc

theorem sub_next_lt {t : List Char} {start n cut overlap : Nat}
    (hs : start < t.length) (h : t.length - start < n + 1) :
    t.length - scraperNextStart start cut overlap < n := by
  have hgt := scraperNextStart_gt start cut overlap
  omega

/-- Fuel `t.length - start + 1` suffices for the scraper loop: each
iteration strictly advances `start` (the forward-progress clamp), so the
loop runs at most `len(text)` iterations. -/
theorem scraperLoop_isSome (t : List Char) (maxChars overlap : Nat) :
    ∀ (fuel start : Nat) (acc : List (List Char)),
      t.length - start < fuel →
      (scraperLoop t maxChars overlap fuel start acc).isSome = true := by
  intro fuel
  induction fuel with
  | zero => intro start acc h; omega
  | succ n ih =>
    intro start acc h
    simp only [scraperLoop]
    by_cases hs : start < t.length
    · rw [if_pos hs]
      by_cases hstop : min (start + maxChars) t.length ≥ t.length
      · rw [if_pos hstop]
        rfl
      · rw [if_neg hstop]
        exact ih _ _ (sub_next_lt hs h)
    · rw [if_neg hs]
      rfl

/-- Every chunk the rag loop ever returns is bounded by `maxChars`
(given a bounded accumulator). -/
theorem ragLoop_length_le (t : List Char) (maxChars overlap : Nat) :
    ∀ (fuel start : Nat) (acc out : List (List Char)),
      (∀ c ∈ acc, c.length ≤ maxChars) →
      ragLoop t maxChars overlap fuel start acc = some out →
      ∀ c ∈ out, c.length ≤ maxChars := by
  intro fuel
  induction fuel with
  | zero => intro start acc out hacc h; simp [ragLoop] at h
  | succ n ih =>
    intro start acc out hacc h
    simp only [ragLoop] at h
    by_cases hs : start < t.length
    · rw [if_pos hs] at h
      by_cases hstop : min (start + maxChars) t.length = t.length
      · rw [if_pos hstop] at h
        injection h with h
        subst h
        exact chunks_snoc_bound hacc (window_piece_le t start maxChars _) _
      · rw [if_neg hstop] at h
        exact ih _ _ out (chunks_snoc_bound hacc (window_piece_le t start maxChars _) _) h
    · rw [if_neg hs] at h
      injection h with h
      subst h
      exact hacc

/-- Every chunk the scraper loop ever returns is bounded by `maxChars`
(given a bounded accumulator). -/
theorem scraperLoop_length_le (t : List Char) (maxChars overlap : Nat) :
    ∀ (fuel start : Nat) (acc out : List (List Char)),
      (∀ c ∈ acc, c.length ≤ maxChars) →
      scraperLoop t maxChars overlap fuel start acc = some out →
      ∀ c ∈ out, c.length ≤ maxChars := by
  intro fuel
  induction fuel with
  | zero => intro start acc out hacc h; simp [scraperLoop] at h
  | succ n ih =>
    intro start acc out hacc h
    simp only [scraperLoop] at h
    by_cases hs : start < t.length
    · rw [if_pos hs] at h
      by_cases hstop : min (start + maxChars) t.length ≥ t.length
      · rw [if_pos hstop] at h
        injection h with h
        subst h
        exact chunks_snoc_bound hacc (window_piece_le t start maxChars _) _
      · rw [if_neg hstop] at h
        exact ih _ _ out (chunks_snoc_bound hacc (window_piece_le t start maxChars _) _) h
    · rw [if_neg hs] at h
      injection h with h
      subst h
      exact hacc

/-!
## Claim theorems: chunking
-/

/-- C3 (failing-input evaluation): on the normalized input `"a. bbbbbb"`
with `max_chars = 5, overlap = 3`, the `rag._chunk_text` loop makes no
forward progress: the window cuts at the sentence boundary (`cut = 1`),
and `start = max(0, start + 1 - 3)` puts `start` back to `0`, so the
loop never terminates — `ragLoop` returns `none` for every fuel, and the
next-start computation maps `start = 0` to `0` again, violating the
claimed strict-forward-progress invariant. -/
theorem rag_chunk_no_forward_progress :
    (∀ (fuel : Nat) (acc : List (List Char)),
      ragLoop (chars "a. bbbbbb") 5 3 fuel 0 acc = none) ∧
    ragChunkText (chars "a. bbbbbb") 5 3 = none := by
  constructor
  · intro fuel
    induction fuel with
    | zero => intro acc; rfl
    | succ n ih =>
      intro acc
      have step : ragLoop (chars "a. bbbbbb") 5 3 (n + 1) 0 acc
          = ragLoop (chars "a. bbbbbb") 5 3 n 0 (acc ++ [['a']]) := rfl
      rw [step]
      exact ih (acc ++ [['a']])
  · decide

/-- The scraper chunker, by contrast, terminates on every input: the
clamped advance makes `t.length + 1` fuel always sufficient. -/
theorem scraper_chunk_terminates (t : List Char) (maxChars overlap : Nat) :
    (scraperChunkText t maxChars overlap).isSome = true := by
  unfold scraperChunkText
  by_cases h : (normalizeWs t).length ≤ maxChars
  · rw [if_pos h]
    rfl
  · rw [if_neg h]
    have hs := scraperLoop_isSome (normalizeWs t) maxChars overlap
      ((normalizeWs t).length + 1) 0 [] (by omega)
    rcases Option.isSome_iff_exists.mp hs with ⟨out, hout⟩
    rw [hout]
    rfl

/-- C6 (counterexample): on `"ab. cd. ef"` with `max_chars = 6,
overlap = 0` the two chunkers disagree (`rag` cuts before the sentence
terminator and returns `["ab", ". cd", ". ef"]`, `scraper` includes it
and returns `["ab.", "cd.", "ef"]`). -/
theorem chunkers_differ :
    ragChunkText (chars "ab. cd. ef") 6 0
      ≠ scraperChunkText (chars "ab. cd. ef") 6 0 := by
  decide

/-- C6 (amended): the two chunkers agree on every input whose
normalization fits within `maxChars` — both return that single chunk, or
nothing for whitespace-only input; on longer inputs they are not
equivalent (see `chunkers_differ`). -/
theorem chunkers_agree_on_short_text (t : List Char) (maxChars overlap : Nat)
    (h : (normalizeWs t).length ≤ maxChars) :
    ragChunkText t maxChars overlap = scraperChunkText t maxChars overlap := by
  unfold ragChunkText scraperChunkText
  rw [if_pos h, if_pos h]

theorem chunkers_agree_on_short_text_witness :
    (normalizeWs (chars "hi. there")).length ≤ 100 ∧
    ragChunkText (chars "hi. there") 100 0
      = scraperChunkText (chars "hi. there") 100 0 :=
  ⟨by decide, chunkers_agree_on_short_text (chars "hi. there") 100 0 (by decide)⟩

/-- C7: every chunk either chunker emits has length at most `maxChars`
(the code hard-cuts at the window boundary, so not even an unbroken
over-long sentence overflows a chunk; the permitted-overflow exception in
the claim is never exercised, and no content is truncated below
`maxChars` capacity). -/
theorem chunk_length_invariant (t : List Char) (maxChars overlap : Nat) :
    (∀ out, ragChunkText t maxChars overlap = some out →
      ∀ c ∈ out, c.length ≤ maxChars) ∧
    (∀ out, scraperChunkText t maxChars overlap = some out →
      ∀ c ∈ out, c.length ≤ maxChars) := by
  constructor
  · intro out hout c hc
    unfold ragChunkText at hout
    by_cases h : (normalizeWs t).length ≤ maxChars
    · rw [if_pos h] at hout
      injection hout with hout
      subst hout
      split at hc
      · simp only [List.mem_singleton] at hc
        subst hc
        exact h
      · simp at hc
    · rw [if_neg h] at hout
      rcases Option.map_eq_some'.mp hout with ⟨res, hres, hdedupe⟩
      subst hdedupe
      exact ragLoop_length_le _ _ _ _ _ _ res (by intro c hc; simp at hc) hres c
        (dedupe_subset res c hc)
  · intro out hout c hc
    unfold scraperChunkText at hout
    by_cases h : (normalizeWs t).length ≤ maxChars
    · rw [if_pos h] at hout
      injection hout with hout
      subst hout
      split at hc
      · simp only [List.mem_singleton] at hc
        subst hc
        exact h
      · simp at hc
    · rw [if_neg h] at hout
      rcases Option.map_eq_some'.mp hout with ⟨res, hres, hdedupe⟩
      subst hdedupe
      exact scraperLoop_length_le _ _ _ _ _ _ res (by intro c hc; simp at hc) hres c
        (dedupe_subset res c hc)

theorem chunk_length_invariant_witness :
    ragChunkText (chars "hello") 10 0 = some [chars "hello"] ∧
    (chars "hello").length ≤ 10 :=
  ⟨by decide, (chunk_length_invariant (chars "hello") 10 0).1 [chars "hello"]
    (by decide) (chars "hello") (by decide)⟩

/-- C8 (counterexample): `"a  b"` (double space) is four characters, not
empty and not whitespace-only, yet with `max_chars = 10` neither chunker
returns `["a  b"]` — both return the whitespace-normalized `["a b"]`. -/
theorem chunk_short_not_identity :
    ragChunkText (chars "a  b") 10 0 ≠ some [chars "a  b"] ∧
    scraperChunkText (chars "a  b") 10 0 ≠ some [chars "a  b"] ∧
    pyStrip (chars "a  b") ≠ [] ∧
    scraperChunkText (chars "a  b") 10 0 ≠ some [] := by
  decide

/-- C8 (amended): for text of length at most `maxChars`, both chunkers
return the one-element list holding the whitespace-normalized text —
which is `[t]` itself whenever `t` is already normalized — or the empty
list when `t` is empty or whitespace-only. -/
theorem chunk_short_text_normalized (t : List Char) (maxChars overlap : Nat)
    (h : t.length ≤ maxChars) :
    ragChunkText t maxChars overlap
        = some (if normalizeWs t = [] then [] else [normalizeWs t]) ∧
    scraperChunkText t maxChars overlap
        = some (if normalizeWs t = [] then [] else [normalizeWs t]) := by
  have hn : (normalizeWs t).length ≤ maxChars :=
    le_trans (normalizeWs_length_le t) h
  constructor
  · unfold ragChunkText
    rw [if_pos hn]
    by_cases he : normalizeWs t = [] <;> simp [he]
  · unfold scraperChunkText
    rw [if_pos hn]
    by_cases he : normalizeWs t = [] <;> simp [he]

theorem chunk_short_text_normalized_witness :
    (chars "a  b").length ≤ 10 ∧
    ragChunkText (chars "a  b") 10 0 = some [chars "a b"] :=
  ⟨by decide, by
    have h := (chunk_short_text_normalized (chars "a  b") 10 0 (by decide)).1
    simpa using h⟩

/-!
## Claim theorems: ingestion and retrieval service layer
-/

/-- C9: extracted content that is empty or whitespace-only short-circuits
`document_to_pinecone`: the chunk count is 0 and no embedding or index
service call is made. -/
theorem empty_content_short_circuit {V : Type} (h : String → String)
    (emb : String → V) (tenant user filename : String) (content : List Char)
    (hempty : pyStrip content = []) :
    document_to_pinecone h emb tenant user filename content = some (0, []) := by
  unfold document_to_pinecone
  rw [if_pos hempty]

theorem empty_content_short_circuit_witness :
    pyStrip (chars "   ") = [] ∧
    document_to_pinecone (V := Nat) id (fun _ => 0) "T" "u" "f.txt" (chars "   ")
      = some (0, []) :=
  ⟨by decide,
    empty_content_short_circuit id (fun _ => 0) "T" "u" "f.txt" (chars "   ")
      (by decide)⟩

/-- C2 (failing-input evaluation): `rag.search` has no `min_score`
parameter and performs no score-based filtering: against a store whose
only entry scores 0.4 it returns that match rather than the empty result
the claimed `minScore = 0.9` threshold requires (moreover
`routers/query.py` passes `min_score=` to `search`, which raises a
TypeError at runtime). -/
theorem below_threshold_match_returned :
    search (fun _ => (0 : Nat)) (fun _ => (2 : ℚ)/5) "T" "question" 8 none "all"
        [("T", ⟨"id0", 0, ⟨"T", "u", "document", "doc.pdf", 0, "some text"⟩⟩)]
      = [⟨(2 : ℚ)/5, ⟨"id0", 0, ⟨"T", "u", "document", "doc.pdf", 0, "some text"⟩⟩⟩]
    ∧ (2 : ℚ)/5 < 9/10 :=
  ⟨rfl, by norm_num⟩

/-- The filter `rag.search` builds always carries the tenant-equality
conjunct, whatever the optional source-type and user filters are. -/
theorem buildSearchFilter_tenant (tenant : String) (fuc : Option String)
    (st : String) (m : EntryMeta)
    (h : (buildSearchFilter tenant fuc st).eval m = true) :
    m.tenant_code = tenant := by
  unfold buildSearchFilter at h
  cases fuc with
  | none =>
    by_cases h1 : st = "documents"
    · simp only [if_pos h1] at h
      simp [MetaFilter.eval] at h
      exact h.1
    · by_cases h2 : st = "websites"
      · simp only [if_neg h1, if_pos h2] at h
        simp [MetaFilter.eval] at h
        exact h.1
      · simp only [if_neg h1, if_neg h2] at h
        simp [MetaFilter.eval] at h
        exact h
  | some u =>
    by_cases h1 : st = "documents"
    · simp only [if_pos h1] at h
      simp [MetaFilter.eval] at h
      exact h.1.1
    · by_cases h2 : st = "websites"
      · simp only [if_neg h1, if_pos h2] at h
        simp [MetaFilter.eval] at h
        exact h.1.1
      · simp only [if_neg h1, if_neg h2] at h
        simp [MetaFilter.eval] at h
        exact h.1

theorem upsertChunksVectors_tenant {V : Type} (h : String → String)
    (emb : String → V) (tenant user doc : String) (chunks : List String)
    (e : IndexEntry V) (he : e ∈ upsertChunksVectors h emb tenant user doc chunks) :
    e.meta.tenant_code = tenant := by
  unfold upsertChunksVectors at he
  rcases List.mem_map.mp he with ⟨p, _, rfl⟩
  rfl

theorem upsertWebsiteVectors_tenant {V : Type} (h hmd5 : String → String)
    (emb : String → V) (tenant user url : String) (chunks : List String)
    (e : IndexEntry V) (he : e ∈ upsertWebsiteVectors h hmd5 emb tenant user url chunks) :
    e.meta.tenant_code = tenant := by
  unfold upsertWebsiteVectors at he
  rcases List.mem_map.mp he with ⟨p, _, rfl⟩
  rfl

theorem search_match_tenant {V : Type} (qemb : String → V)
    (sc : IndexEntry V → ℚ) (tenant query : String) (top_k : Nat)
    (fuc : Option String) (st : String) (store : Store V) (m : SearchMatch V)
    (hm : m ∈ search qemb sc tenant query top_k fuc st store) :
    m.entry.meta.tenant_code = tenant := by
  unfold search indexQuery at hm
  have hm' := List.mem_of_mem_take hm
  rcases List.mem_map.mp hm' with ⟨p, hp, rfl⟩
  have hflt := (List.mem_filter.mp hp).2
  simp only [Bool.and_eq_true, decide_eq_true_eq] at hflt
  exact buildSearchFilter_tenant _ _ _ _ hflt.2

/-- C1: every match returned by `search` under tenant `T` carries
metadata with tenant code `T`, and is therefore never an entry written by
`upsert_chunks` / `upsert_website_chunks` under a different tenant code,
whatever any tenant has ingested into the store. -/
theorem tenant_isolation {V : Type} (qemb : String → V)
    (sc : IndexEntry V → ℚ) (tenant query : String) (top_k : Nat)
    (fuc : Option String) (st : String) (store : Store V)
    (m : SearchMatch V)
    (hm : m ∈ search qemb sc tenant query top_k fuc st store) :
    m.entry.meta.tenant_code = tenant ∧
    ∀ (h hmd5 : String → String) (emb : String → V) (U u src : String)
      (chunks : List String), U ≠ tenant →
      m.entry ∉ upsertChunksVectors h emb U u src chunks ∧
      m.entry ∉ upsertWebsiteVectors h hmd5 emb U u src chunks := by
  have ht := search_match_tenant qemb sc tenant query top_k fuc st store m hm
  refine ⟨ht, ?_⟩
  intro h hmd5 emb U u src chunks hU
  constructor
  · intro hmem
    have hW := upsertChunksVectors_tenant h emb U u src chunks m.entry hmem
    exact hU (by rw [← hW, ht])
  · intro hmem
    have hW := upsertWebsiteVectors_tenant h hmd5 emb U u src chunks m.entry hmem
    exact hU (by rw [← hW, ht])

theorem tenant_isolation_witness :
    ((⟨0, ⟨"A:doc:0", 0, ⟨"A", "u1", "document", "doc", 0, "hello"⟩⟩⟩ : SearchMatch Nat)
        ∈ search (fun _ => (0 : Nat)) (fun _ => (0 : ℚ)) "A" "q" 8 none "all"
            (upsert_chunks id (fun _ => (0 : Nat)) "A" "u1" "doc" ["hello"] []).2) ∧
    (⟨0, ⟨"A:doc:0", 0, ⟨"A", "u1", "document", "doc", 0, "hello"⟩⟩⟩
        : SearchMatch Nat).entry.meta.tenant_code = "A" ∧
    (⟨0, ⟨"A:doc:0", 0, ⟨"A", "u1", "document", "doc", 0, "hello"⟩⟩⟩
        : SearchMatch Nat).entry
      ∉ upsertChunksVectors id (fun _ => (0 : Nat)) "B" "u2" "doc" ["hello"] := by
  have hmem : (⟨0, ⟨"A:doc:0", 0, ⟨"A", "u1", "document", "doc", 0, "hello"⟩⟩⟩
      : SearchMatch Nat)
      ∈ search (fun _ => (0 : Nat)) (fun _ => (0 : ℚ)) "A" "q" 8 none "all"
          (upsert_chunks id (fun _ => (0 : Nat)) "A" "u1" "doc" ["hello"] []).2 := by
    decide
  have hiso := tenant_isolation (fun _ => (0 : Nat)) (fun _ => (0 : ℚ)) "A" "q" 8
    none "all" _ _ hmem
  exact ⟨hmem, hiso.1,
    (hiso.2 id id (fun _ => (0 : Nat)) "B" "u2" "doc" ["hello"] (by decide)).1⟩

/-- Keys of a filtered store: membership loses exactly the removed key. -/
theorem mem_storeKeys_filter {V : Type} (ns i : String) (store : Store V)
    (k : String × String) :
    (k ∈ storeKeys (store.filter (fun p => ¬(p.1 = ns ∧ p.2.id = i)))
      ↔ k ∈ storeKeys store ∧ k ≠ (ns, i)) := by
  simp only [storeKeys, List.mem_map, List.mem_filter, decide_eq_true_eq]
  constructor
  · rintro ⟨p, ⟨hp, hq⟩, rfl⟩
    refine ⟨⟨p, hp, rfl⟩, ?_⟩
    simpa [Prod.ext_iff] using hq
  · rintro ⟨⟨p, hp, rfl⟩, hk⟩
    exact ⟨p, ⟨hp, by simpa [Prod.ext_iff] using hk⟩, rfl⟩

theorem storeKeys_append {V : Type} (a b : Store V) :
    storeKeys (a ++ b) = storeKeys a ++ storeKeys b :=
  List.map_append _ _ _

/-- The key set after an upsert is the old key set plus the keys of the
written entries: overwrite, never duplicate. -/
theorem mem_storeKeys_upsert {V : Type} (ns : String) (E : List (IndexEntry V)) :
    ∀ (store : Store V) (k : String × String),
      k ∈ storeKeys (storeUpsert ns E store) ↔
        k ∈ storeKeys store ∨ k ∈ E.map (fun e => (ns, e.id)) := by
  induction E with
  | nil => intro store k; simp [storeUpsert]
  | cons e rest ih =>
    intro store k
    have hstep : storeUpsert ns (e :: rest) store
        = storeUpsert ns rest
            (store.filter (fun p => ¬(p.1 = ns ∧ p.2.id = e.id)) ++ [(ns, e)]) := rfl
    rw [hstep, ih]
    have happ : k ∈ storeKeys
        (store.filter (fun p => ¬(p.1 = ns ∧ p.2.id = e.id)) ++ [(ns, e)])
        ↔ (k ∈ storeKeys store ∧ k ≠ (ns, e.id)) ∨ k = (ns, e.id) := by
      rw [storeKeys_append, List.mem_append, mem_storeKeys_filter]
      simp [storeKeys]
    rw [happ]
    simp only [List.map_cons, List.mem_cons]
    by_cases hk : k = (ns, e.id) <;> tauto

/-- The ids of one `upsert_chunks` run depend only on the hash of
`(tenant, doc, chunk index)` — not on the user code, embeddings, or chunk
texts. -/
theorem upsertChunksVectors_ids {V : Type} (h : String → String)
    (emb : String → V) (tenant u doc : String) (chunks : List String) :
    (upsertChunksVectors h emb tenant u doc chunks).map (fun e => e.id)
      = (List.range chunks.length).map
          (fun i => h (tenant ++ ":" ++ doc ++ ":" ++ toString i)) := by
  unfold upsertChunksVectors
  rw [List.map_map]
  show chunks.enum.map
    ((fun i => h (tenant ++ ":" ++ doc ++ ":" ++ toString i)) ∘ Prod.fst) = _
  rw [← List.map_map, List.enum_map_fst]

theorem upsertWebsiteVectors_ids {V : Type} (h hmd5 : String → String)
    (emb : String → V) (tenant u url : String) (chunks : List String) :
    (upsertWebsiteVectors h hmd5 emb tenant u url chunks).map (fun e => e.id)
      = (List.range chunks.length).map
          (fun i => h (tenant ++ ":website:" ++ hmd5 url ++ ":" ++ toString i)) := by
  unfold upsertWebsiteVectors
  rw [List.map_map]
  show chunks.enum.map
    ((fun i => h (tenant ++ ":website:" ++ hmd5 url ++ ":" ++ toString i)) ∘ Prod.fst) = _
  rw [← List.map_map, List.enum_map_fst]

/-- C4: IndexEntry ids are a deterministic function of (tenant code,
source identifier, chunk index): two upsert runs over content of the same
length produce identical id lists whatever the user code, embeddings or
chunk texts are (for documents and websites alike), and re-running the
same upsert leaves the set of (namespace, id) keys of the store
unchanged — re-ingestion overwrites instead of duplicating. -/
theorem upsert_ids_deterministic {V : Type} (h hmd5 : String → String)
    (emb1 emb2 : String → V) (tenant u1 u2 doc url : String)
    (chunks1 chunks2 : List String) (store : Store V)
    (hlen : chunks1.length = chunks2.length) :
    ((upsertChunksVectors h emb1 tenant u1 doc chunks1).map (fun e => e.id)
      = (upsertChunksVectors h emb2 tenant u2 doc chunks2).map (fun e => e.id)) ∧
    ((upsertWebsiteVectors h hmd5 emb1 tenant u1 url chunks1).map (fun e => e.id)
      = (upsertWebsiteVectors h hmd5 emb2 tenant u2 url chunks2).map (fun e => e.id)) ∧
    (∀ k, k ∈ storeKeys (upsert_chunks h emb1 tenant u1 doc chunks1
            (upsert_chunks h emb1 tenant u1 doc chunks1 store).2).2
        ↔ k ∈ storeKeys (upsert_chunks h emb1 tenant u1 doc chunks1 store).2) := by
  refine ⟨?_, ?_, ?_⟩
  · rw [upsertChunksVectors_ids, upsertChunksVectors_ids, hlen]
  · rw [upsertWebsiteVectors_ids, upsertWebsiteVectors_ids, hlen]
  · intro k
    unfold upsert_chunks
    simp only []
    rw [mem_storeKeys_upsert, mem_storeKeys_upsert]
    tauto

theorem upsert_ids_deterministic_witness :
    (["hello there"] : List String).length = (["other text"] : List String).length ∧
    (upsertChunksVectors id (fun _ => (0 : Nat)) "A" "u1" "doc" ["hello there"]).map
        (fun e => e.id)
      = (upsertChunksVectors id (fun _ => (1 : Nat)) "A" "u2" "doc" ["other text"]).map
        (fun e => e.id) :=
  ⟨rfl,
    (upsert_ids_deterministic id id (fun _ => (0 : Nat)) (fun _ => (1 : Nat))
      "A" "u1" "u2" "doc" "http://x" ["hello there"] ["other text"] [] rfl).1⟩

/-!
## Claim theorems: image enrichment and concurrency
-/

theorem downloadAndAnalyzeImage_failure (o : ImgOutcome) (h : o.isFailure) :
    downloadAndAnalyzeImage o = "" := by
  cases o <;> first | rfl | exact h.elim

theorem collectDescriptions_append (xs : List ImgOutcome) :
    ∀ (ys : List ImgOutcome) (i : Nat),
      collectDescriptions i (xs ++ ys)
        = collectDescriptions i xs ++ collectDescriptions (i + xs.length) ys := by
  induction xs with
  | nil => intro ys i; simp [collectDescriptions]
  | cons o rest ih =>
    intro ys i
    simp only [List.cons_append, collectDescriptions, List.length_cons,
      List.append_eq]
    have heq : i + 1 + rest.length = i + (rest.length + 1) := by omega
    rw [ih ys (i + 1), heq]
    by_cases hd : downloadAndAnalyzeImage o ≠ ""
    · rw [if_pos hd, if_pos hd, List.cons_append]
    · rw [if_neg hd, if_neg hd]

theorem collectDescriptions_nonempty (l : List ImgOutcome) :
    ∀ (i : Nat) (s : String), s ∈ collectDescriptions i l →
      ∃ j d, d ≠ "" ∧ s = "\n[IMAGE " ++ toString (j + 1) ++ "]: " ++ d ++ "\n" := by
  induction l with
  | nil => intro i s hs; simp [collectDescriptions] at hs
  | cons o rest ih =>
    intro i s hs
    simp only [collectDescriptions] at hs
    by_cases hd : downloadAndAnalyzeImage o ≠ ""
    · rw [if_pos hd] at hs
      rcases List.mem_cons.mp hs with h1 | h1
      · exact ⟨i, downloadAndAnalyzeImage o, hd, h1⟩
      · exact ih (i + 1) s h1
    · rw [if_neg hd] at hs
      exact ih (i + 1) s hs

/-- C5: a failing image task yields the empty description; the failure
never escapes the coordinator — the aggregated output is exactly the
contributions of the sibling images, unchanged, and contains only
non-empty descriptions. -/
theorem enrichment_failure_isolated (maxImages : Nat)
    (pre post : List ImgOutcome) (o : ImgOutcome) (hfail : o.isFailure)
    (hlen : pre.length + post.length + 1 ≤ maxImages) :
    downloadAndAnalyzeImage o = "" ∧
    enrichDescriptions maxImages (pre ++ o :: post)
      = collectDescriptions 0 pre ++ collectDescriptions (pre.length + 1) post ∧
    (∀ s ∈ enrichDescriptions maxImages (pre ++ o :: post),
      ∃ j d, d ≠ "" ∧ s = "\n[IMAGE " ++ toString (j + 1) ++ "]: " ++ d ++ "\n") := by
  have hdo := downloadAndAnalyzeImage_failure o hfail
  have htake : (pre ++ o :: post).take maxImages = pre ++ o :: post :=
    List.take_of_length_le (by simp only [List.length_append, List.length_cons]; omega)
  refine ⟨hdo, ?_, ?_⟩
  · unfold enrichDescriptions
    rw [htake, collectDescriptions_append]
    congr 1
    simp only [collectDescriptions, hdo]
    rw [if_neg (by simp)]
    have heq : 0 + pre.length + 1 = pre.length + 1 := by omega
    rw [heq]
  · intro s hs
    unfold enrichDescriptions at hs
    rw [htake] at hs
    exact collectDescriptions_nonempty _ _ _ hs

theorem enrichment_failure_isolated_witness :
    ImgOutcome.isFailure .httpTimeout ∧
    enrichDescriptions 10 [.ok "good", .httpTimeout, .ok "also"]
      = collectDescriptions 0 [.ok "good"] ++ collectDescriptions 2 [.ok "also"] :=
  ⟨trivial,
    (enrichment_failure_isolated 10 [.ok "good"] [.ok "also"] .httpTimeout trivial
      (by decide)).2.1⟩

/-- The semaphore invariant: free permits plus running tasks always equal
the configured concurrency bound. -/
theorem enrich_invariant (maxC imageCount maxImages : Nat) (s : EnrichState)
    (hr : EnrichReach (enrichInit maxC imageCount maxImages) s) :
    s.avail + s.running.length = maxC := by
  induction hr with
  | refl => simp [enrichInit]
  | step hr hstep ih =>
    rename_i sMid sFin
    cases hstep with
    | acquire i s hav hp =>
      simp only [List.length_cons]
      omega
    | release i s hrun =>
      simp only []
      rw [List.length_erase_of_mem hrun]
      have hpos : 0 < sMid.running.length :=
        List.length_pos.mpr (List.ne_nil_of_mem hrun)
      omega

/-- C10: in every state the enrichment coordinator can reach — for any
image count, even with `maxImages` exceeding the concurrency bound — at
most `maxConcurrency` image tasks are inside the semaphore-guarded
download-and-analyze section simultaneously. -/
theorem semaphore_concurrency_bound (maxC imageCount maxImages : Nat)
    (s : EnrichState)
    (hr : EnrichReach (enrichInit maxC imageCount maxImages) s) :
    s.running.length ≤ maxC := by
  have hinv := enrich_invariant maxC imageCount maxImages s hr
  omega

theorem semaphore_concurrency_bound_witness :
    (EnrichState.mk 0 [2, 3, 4] [1, 0] []).running.length ≤ 2 :=
  semaphore_concurrency_bound 2 5 5 _
    (EnrichReach.step
      (EnrichReach.step EnrichReach.refl
        (EnrichStep.acquire 0 _ (by decide) (by decide)))
      (EnrichStep.acquire 1 _ (by decide) (by decide)))

end Bot
